import Mathlib

/-!
# Verification of the `oxidize` integration module

Shallow embedding of `src/oxidize/src/integrate.rs`, which exposes two pure
quadrature routines over a slice of `(f64, f64)` samples:

* `trapezoidal` — composite trapezoid rule;
* `simpson` — composite Simpson rule.

Two embeddings are developed.

1. An exact-arithmetic embedding over `ℚ` (`Integrate.trapezoidal`,
   `Integrate.simpson`): the Rust code line by line, with every `f64`
   operation read as exact field arithmetic.  All structural claims
   (summation ranges, degenerate branches, index bookkeeping, dependence
   on the inputs) are settled against this embedding.

2. A binary64 model (`FP` namespace): `f64` values are modelled as dyadic
   rationals together with `±∞` and `NaN`, and every arithmetic operation
   rounds its exact rational result to the nearest representable binary64
   value (round-to-nearest, ties-to-even, subnormal range included,
   overflow to `±∞` at magnitude `2^1024`).  Signed zeros are identified
   (`+0.0` and `-0.0` compare equal in `f64`, and no claim distinguishes
   them).  The bit-level numeric claims are settled against this model.
-/

namespace Integrate

/-- Reading a sample from the slice: `data[i]` in the Rust source.  All
accesses the code performs are in bounds (proved in `access_safety`), so the
default value is never observed. -/
def getS (data : List (ℚ × ℚ)) (i : ℕ) : ℚ × ℚ :=
  data.getD i (0, 0)

/-- Component access `data[i].0` (the `x` coordinate). -/
def xval (data : List (ℚ × ℚ)) (i : ℕ) : ℚ :=
  (getS data i).1

/-- Component access `data[i].1` (the `y` value). -/
def yval (data : List (ℚ × ℚ)) (i : ℕ) : ℚ :=
  (getS data i).2

/-- Exact-arithmetic embedding of `integrate::trapezoidal`:

```rust
pub fn trapezoidal(data: &[(f64,f64)]) -> f64 {
    if data.len() <= 1 { return 0.0; }
    let last = data.len() - 1;
    let h = data[1].0 - data[0].0;
    let mut result = 0.5*(data[0].1 + data[last].1);
    for x in 1..last { result += data[x].1; }
    result *= h;
    result
}
```

The `for x in 1..last` loop runs over `x = 1, …, last - 1`, embedded as a
left fold over `List.range (last - 1)` at offset `1`. -/
def trapezoidal (data : List (ℚ × ℚ)) : ℚ :=
  if data.length ≤ 1 then 0
  else
    let last := data.length - 1
    let h := xval data 1 - xval data 0
    let result := (1/2 : ℚ) * (yval data 0 + yval data last)
    let result := (List.range (last - 1)).foldl (fun acc x => acc + yval data (1 + x)) result
    result * h

/-- Exact-arithmetic embedding of `integrate::simpson`:

```rust
pub fn simpson(data: &[(f64,f64)]) -> f64 {
    if data.len() <= 2 { return 0.0; }
    if data.len() % 2 == 0 { return 0.0; }
    let last = data.len() - 1;
    let h = data[1].0 - data[0].0;
    let mut result = 0.0;
    result += data[0].1;
    result += data[last].1;
    let mut subres4 = 0.0;
    let num_odd = data.len() / 2;
    for x in 0..num_odd { let i = 2*x + 1; subres4 += data[i].1 }
    result += 4.0*subres4;
    let mut subres2 = 0.0;
    let num_even = num_odd - 1;
    for x in 0..num_even { let i = 2*x + 2; subres2 += data[i].1; }
    result += 2.0*subres2;
    result *= h/3.0;
    result
}
``` -/
def simpson (data : List (ℚ × ℚ)) : ℚ :=
  if data.length ≤ 2 then 0
  else if data.length % 2 = 0 then 0
  else
    let last := data.length - 1
    let h := xval data 1 - xval data 0
    let result : ℚ := 0
    let result := result + yval data 0
    let result := result + yval data last
    let num_odd := data.length / 2
    let subres4 := (List.range num_odd).foldl (fun acc x => acc + yval data (2*x + 1)) 0
    let result := result + 4 * subres4
    let num_even := num_odd - 1
    let subres2 := (List.range num_even).foldl (fun acc x => acc + yval data (2*x + 2)) 0
    let result := result + 2 * subres2
    result * (h / 3)

/-- Indices at which `trapezoidal` reads `data`, mirroring the accesses the
Rust source performs once the `data.len() <= 1` guard has been passed:
`data[1].0`, `data[0].0`, `data[0].1`, `data[last].1`, then `data[x].1`
for `x in 1..last`. -/
def trapezoidalReads (n : ℕ) : List ℕ :=
  if n ≤ 1 then []
  else [1, 0, n - 1] ++ (List.range (n - 1 - 1)).map (fun x => 1 + x)

/-- Indices at which `simpson` reads `data`, mirroring the accesses the Rust
source performs once both guards have been passed: `data[1].0`, `data[0].0`,
`data[0].1`, `data[last].1`, `data[2*x+1].1` for `x in 0..num_odd` and
`data[2*x+2].1` for `x in 0..num_even`. -/
def simpsonReads (n : ℕ) : List ℕ :=
  if n ≤ 2 then []
  else if n % 2 = 0 then []
  else [1, 0, n - 1]
    ++ (List.range (n / 2)).map (fun x => 2*x + 1)
    ++ (List.range (n / 2 - 1)).map (fun x => 2*x + 2)

/-- Slice read with an arbitrary out-of-bounds default, used to state that
the functions never rely on the default (all accesses are in bounds). -/
def getSW (w : ℚ × ℚ) (data : List (ℚ × ℚ)) (i : ℕ) : ℚ × ℚ :=
  data.getD i w

/-- Like `xval` with an arbitrary out-of-bounds default. -/
def xvalW (w : ℚ × ℚ) (data : List (ℚ × ℚ)) (i : ℕ) : ℚ :=
  (getSW w data i).1

/-- Like `yval` with an arbitrary out-of-bounds default. -/
def yvalW (w : ℚ × ℚ) (data : List (ℚ × ℚ)) (i : ℕ) : ℚ :=
  (getSW w data i).2

/-- The body of `trapezoidal` with every slice read going through the
arbitrary default `w`; used to prove that no read is out of bounds. -/
def trapezoidalW (w : ℚ × ℚ) (data : List (ℚ × ℚ)) : ℚ :=
  if data.length ≤ 1 then 0
  else
    let last := data.length - 1
    let h := xvalW w data 1 - xvalW w data 0
    let result := (1/2 : ℚ) * (yvalW w data 0 + yvalW w data last)
    let result := (List.range (last - 1)).foldl (fun acc x => acc + yvalW w data (1 + x)) result
    result * h

/-- The body of `simpson` with every slice read going through the arbitrary
default `w`; used to prove that no read is out of bounds. -/
def simpsonW (w : ℚ × ℚ) (data : List (ℚ × ℚ)) : ℚ :=
  if data.length ≤ 2 then 0
  else if data.length % 2 = 0 then 0
  else
    let last := data.length - 1
    let h := xvalW w data 1 - xvalW w data 0
    let result : ℚ := 0
    let result := result + yvalW w data 0
    let result := result + yvalW w data last
    let num_odd := data.length / 2
    let subres4 := (List.range num_odd).foldl (fun acc x => acc + yvalW w data (2*x + 1)) 0
    let result := result + 4 * subres4
    let num_even := num_odd - 1
    let subres2 := (List.range num_even).foldl (fun acc x => acc + yvalW w data (2*x + 2)) 0
    let result := result + 2 * subres2
    result * (h / 3)

/-- Composite Simpson rule written panel by panel, following the reference
description: the sum over the `(n-1)/2` two-interval panels of
`(h/3) * (y[2k] + 4*y[2k+1] + y[2k+2])`.  This definition follows the
wording of the refinement claim, to be compared with the grouped-coefficient
form the source computes. -/
def simpsonPanelsRef (data : List (ℚ × ℚ)) : ℚ :=
  ∑ k ∈ Finset.range ((data.length - 1) / 2),
    (xval data 1 - xval data 0) / 3 *
      (yval data (2*k) + 4 * yval data (2*k + 1) + yval data (2*k + 2))

/-- Exact rational version of the `sin^2` sample table used by the embedded
Rust tests: `[(0.0,0.0), (0.25,0.0612087), (0.5,0.229849), (0.75,0.464631),
(1.0,0.708073)]`. -/
def sinSqData : List (ℚ × ℚ) :=
  [(0, 0), (1/4, 612087/10000000), (1/2, 229849/1000000),
   (3/4, 464631/1000000), (1, 708073/1000000)]

/-- Three constant samples on an evenly spaced grid. -/
def constData : List (ℚ × ℚ) := [(0, 5), (1, 5), (2, 5)]

/-- A two-sample sequence (the repository's `test_trapezoidal_two_elements`). -/
def twoData : List (ℚ × ℚ) := [(0, 0), (1, 1)]

/-- A four-sample (even length) sequence. -/
def fourData : List (ℚ × ℚ) := [(0, 1), (1, 2), (2, 3), (3, 4)]

/-- A one-sample sequence (the repository's `test_trapezoidal_one_element`). -/
def oneData : List (ℚ × ℚ) := [(0, 1)]

/-- First sequence for the noninterference claim: `y` values `1, 2, 3`,
leading spacing `1`, third `x` value arbitrary. -/
def hOnlyA : List (ℚ × ℚ) := [(0, 1), (1, 2), (5, 3)]

/-- Second sequence for the noninterference claim: same `y` values and the
same leading spacing as `hOnlyA`, but completely different `x` values. -/
def hOnlyB : List (ℚ × ℚ) := [(100, 1), (101, 2), (7, 3)]

end Integrate

namespace FP

/-- Binary64 value: a finite dyadic rational `m * 2^e` (kept canonical:
`m` odd, or `m = 0 ∧ e = 0`), `+∞`, `-∞`, or `NaN`.  Signed zeros are
identified; `f64` equality (`==`) agrees with structural equality on the
values the claims compare (finite numbers). -/
inductive F64 where
  | fin (m : ℤ) (e : ℤ)
  | pinf
  | ninf
  | nan
deriving DecidableEq

/-- Fuel-driven floor of `log2`: `nlog2F fuel n = ⌊log2 n⌋` for
`2 ≤ n < 2^fuel`. -/
def nlog2F : ℕ → ℕ → ℕ
  | 0, _ => 0
  | fuel+1, n => if 2 ≤ n then nlog2F fuel (n / 2) + 1 else 0

/-- Floor of `log2 n`, valid for `n < 2^5000` (every number this model
meets is far below that). -/
def nlog2 (n : ℕ) : ℕ := nlog2F 5000 n

/-- The integer `2^n`. -/
def ipow2 (n : ℕ) : ℤ := ((2^n : ℕ) : ℤ)

/-- Floor of `log2 (a / b)` for positive integers `a`, `b`. -/
def flog2 (a b : ℤ) : ℤ :=
  let d : ℤ := (nlog2 a.toNat : ℤ) - (nlog2 b.toNat : ℤ)
  if 0 ≤ d then (if b * ipow2 d.toNat ≤ a then d else d - 1)
  else (if b ≤ a * ipow2 (-d).toNat then d else d - 1)

/-- Round `a / b` (with `b > 0`) to the nearest integer, ties to even. -/
def rneInt (a b : ℤ) : ℤ :=
  let q := Int.ediv a b
  let r := a - q * b
  if 2*r < b then q
  else if b < 2*r then q + 1
  else if q % 2 = 0 then q else q + 1

/-- Shift factors of two from the mantissa into the exponent, producing the
canonical representation of a positive finite value. -/
def stripTwos : ℕ → ℤ → ℤ → F64
  | 0, m, e => .fin m e
  | fuel+1, m, e => if m % 2 = 0 then stripTwos fuel (m / 2) (e + 1) else .fin m e

/-- Canonical finite value `m * 2^e` for `m ≥ 0`. -/
def canonPos (m e : ℤ) : F64 :=
  if m = 0 then .fin 0 0 else stripTwos 1100 m e

/-- Round the positive real `(a / b) * 2^k` (`a, b > 0`) to binary64:
round-to-nearest, ties-to-even, subnormal range below `2^-1022` (fixed
quantum `2^-1074`), overflow to `+∞` when the rounded magnitude reaches
`2^1024`.  The overflow test compares `m * 2^(e+1074)` against `2^2098`,
which is exactly `m * 2^e ≥ 2^1024` since `e ≥ -1074`. -/
def roundPos (a b : ℤ) (k : ℤ) : F64 :=
  let E := flog2 a b + k
  let e := max (E - 52) (-1074)
  let s := k - e
  let m := if 0 ≤ s then rneInt (a * ipow2 s.toNat) b else rneInt a (b * ipow2 (-s).toNat)
  if ipow2 2098 ≤ m * ipow2 (e + 1074).toNat then .pinf else canonPos m e

/-- Negation (exact in binary64). -/
def F64.neg : F64 → F64
  | .fin m e => .fin (-m) e
  | .pinf => .ninf
  | .ninf => .pinf
  | .nan => .nan

/-- Round the real `(p / q) * 2^k` (`q > 0`) to binary64. -/
def roundQ (p q k : ℤ) : F64 :=
  if p = 0 then .fin 0 0
  else if 0 < p then roundPos p q k
  else F64.neg (roundPos (-p) q k)

/-- Binary64 addition: the exact sum of the operands, correctly rounded;
IEEE 754 special-value rules for `±∞` and `NaN`. -/
def fadd : F64 → F64 → F64
  | .nan, _ => .nan
  | _, .nan => .nan
  | .pinf, .ninf => .nan
  | .ninf, .pinf => .nan
  | .pinf, _ => .pinf
  | _, .pinf => .pinf
  | .ninf, _ => .ninf
  | _, .ninf => .ninf
  | .fin m1 e1, .fin m2 e2 =>
      let emin := min e1 e2
      roundQ (m1 * ipow2 (e1 - emin).toNat + m2 * ipow2 (e2 - emin).toNat) 1 emin

/-- Binary64 subtraction: `x - y = x + (-y)`, exact in IEEE 754. -/
def fsub (x y : F64) : F64 := fadd x (F64.neg y)

/-- Binary64 multiplication: the exact product, correctly rounded; IEEE 754
special-value rules for `±∞` and `NaN`. -/
def fmul : F64 → F64 → F64
  | .nan, _ => .nan
  | _, .nan => .nan
  | .pinf, .pinf => .pinf
  | .pinf, .ninf => .ninf
  | .ninf, .pinf => .ninf
  | .ninf, .ninf => .pinf
  | .pinf, .fin m _ => if m = 0 then .nan else if 0 < m then .pinf else .ninf
  | .fin m _, .pinf => if m = 0 then .nan else if 0 < m then .pinf else .ninf
  | .ninf, .fin m _ => if m = 0 then .nan else if 0 < m then .ninf else .pinf
  | .fin m _, .ninf => if m = 0 then .nan else if 0 < m then .ninf else .pinf
  | .fin m1 e1, .fin m2 e2 => roundQ (m1 * m2) 1 (e1 + e2)

/-- Binary64 division: the exact quotient, correctly rounded; IEEE 754
special-value rules for `±∞`, `NaN` and division by zero. -/
def fdiv : F64 → F64 → F64
  | .nan, _ => .nan
  | _, .nan => .nan
  | .pinf, .pinf => .nan
  | .pinf, .ninf => .nan
  | .ninf, .pinf => .nan
  | .ninf, .ninf => .nan
  | .pinf, .fin m _ => if 0 ≤ m then .pinf else .ninf
  | .ninf, .fin m _ => if 0 ≤ m then .ninf else .pinf
  | .fin _ _, .pinf => .fin 0 0
  | .fin _ _, .ninf => .fin 0 0
  | .fin m1 e1, .fin m2 e2 =>
      if m2 = 0 then (if m1 = 0 then .nan else if 0 < m1 then .pinf else .ninf)
      else if 0 < m2 then roundQ m1 m2 (e1 - e2)
      else roundQ (-m1) (-m2) (e1 - e2)

/-- The binary64 value denoted by the decimal literal `n / 10^d` (decimal
literals in Rust convert to the nearest `f64`). -/
def dlit (n : ℤ) (d : ℕ) : F64 := roundQ n ((10^d : ℕ) : ℤ) 0

/-- The exact rational value of a finite binary64 datum (`0` for the
non-finite values, which carry no rational value). -/
def F64.val : F64 → ℚ
  | .fin m e => (m : ℚ) * (2:ℚ)^e
  | _ => 0

/-- Finiteness predicate: `true` exactly on `fin` values. -/
def F64.isFinite : F64 → Bool
  | .fin _ _ => true
  | _ => false

/-- Reading a sample from the slice in the binary64 model. -/
def getF (data : List (F64 × F64)) (i : ℕ) : F64 × F64 :=
  data.getD i (.fin 0 0, .fin 0 0)

/-- Component access `data[i].0` in the binary64 model. -/
def xF (data : List (F64 × F64)) (i : ℕ) : F64 := (getF data i).1

/-- Component access `data[i].1` in the binary64 model. -/
def yF (data : List (F64 × F64)) (i : ℕ) : F64 := (getF data i).2

/-- Binary64 embedding of `integrate::trapezoidal`: the same code as
`Integrate.trapezoidal`, with every `f64` operation correctly rounded.
`0.0` and `0.5` are the exact binary64 literals of the source. -/
def trapezoidalF (data : List (F64 × F64)) : F64 :=
  if data.length ≤ 1 then .fin 0 0
  else
    let last := data.length - 1
    let h := fsub (xF data 1) (xF data 0)
    let result := fmul (dlit 5 1) (fadd (yF data 0) (yF data last))
    let result := (List.range (last - 1)).foldl (fun acc x => fadd acc (yF data (1 + x))) result
    fmul result h

/-- Binary64 embedding of `integrate::simpson`: the same code as
`Integrate.simpson`, with every `f64` operation correctly rounded and the
source's accumulation order preserved. -/
def simpsonF (data : List (F64 × F64)) : F64 :=
  if data.length ≤ 2 then .fin 0 0
  else if data.length % 2 = 0 then .fin 0 0
  else
    let last := data.length - 1
    let h := fsub (xF data 1) (xF data 0)
    let result := F64.fin 0 0
    let result := fadd result (yF data 0)
    let result := fadd result (yF data last)
    let num_odd := data.length / 2
    let subres4 := (List.range num_odd).foldl (fun acc x => fadd acc (yF data (2*x + 1))) (.fin 0 0)
    let result := fadd result (fmul (dlit 4 0) subres4)
    let num_even := num_odd - 1
    let subres2 := (List.range num_even).foldl (fun acc x => fadd acc (yF data (2*x + 2))) (.fin 0 0)
    let result := fadd result (fmul (dlit 2 0) subres2)
    fmul result (fdiv h (dlit 3 0))

/-- The `sin^2` sample table of the repository's tests, as binary64 data:
each entry is the correctly rounded value of the decimal literal in
`test_trapezoidal_sin_squared` / `test_simpson_sin_squared`. -/
def sinSqF : List (F64 × F64) :=
  [(dlit 0 1, dlit 0 1),
   (dlit 25 2, dlit 612087 7),
   (dlit 5 1, dlit 229849 6),
   (dlit 75 2, dlit 464631 6),
   (dlit 1 0, dlit 708073 6)]

/-- The largest finite binary64 value, `f64::MAX = (2^53 - 1) * 2^971`. -/
def maxF : F64 := .fin (2^53 - 1) 971

/-- Two finite samples whose `y` value is `f64::MAX`: summing them
overflows, so `trapezoidal` returns `+∞` on this input. -/
def overflowData : List (F64 × F64) :=
  [(.fin 0 0, maxF), (.fin 1 0, maxF)]

/-- Bounded well-behaved binary64 data used to witness the finiteness
theorem: `x` values `0, 1`, `y` values `1, 1`. -/
def boundedData : List (F64 × F64) :=
  [(.fin 0 0, .fin 1 0), (.fin 1 0, .fin 1 0)]

end FP

namespace Integrate

/-- Folding `acc + f x` over `List.range m` is `Finset.range` summation. -/
lemma foldl_add_range (f : ℕ → ℚ) (b : ℚ) (m : ℕ) :
    (List.range m).foldl (fun acc x => acc + f x) b = b + ∑ x ∈ Finset.range m, f x := by
  induction m with
  | zero => simp
  | succ m ih =>
      rw [List.range_succ, List.foldl_append, ih, Finset.sum_range_succ]
      simp [add_assoc]

/-- In-bounds slice reads do not depend on the default element. -/
lemma getSW_eq (w : ℚ × ℚ) (data : List (ℚ × ℚ)) (i : ℕ) (h : i < data.length) :
    getSW w data i = getS data i := by
  unfold getSW getS
  rw [List.getD_eq_getElem data w h, List.getD_eq_getElem data (0, 0) h]

/-- In-bounds `x` reads do not depend on the default element. -/
lemma xvalW_eq (w : ℚ × ℚ) (data : List (ℚ × ℚ)) (i : ℕ) (h : i < data.length) :
    xvalW w data i = xval data i := by
  unfold xvalW xval; rw [getSW_eq w data i h]

/-- In-bounds `y` reads do not depend on the default element. -/
lemma yvalW_eq (w : ℚ × ℚ) (data : List (ℚ × ℚ)) (i : ℕ) (h : i < data.length) :
    yvalW w data i = yval data i := by
  unfold yvalW yval; rw [getSW_eq w data i h]

/-- Closed form of `trapezoidal` past its guard: the trapezoid-rule sum. -/
lemma trapezoidal_spec (data : List (ℚ × ℚ)) (h2 : 2 ≤ data.length) :
    trapezoidal data = (xval data 1 - xval data 0) *
      ((1/2) * yval data 0 + (∑ i ∈ Finset.Ico 1 (data.length - 1), yval data i)
        + (1/2) * yval data (data.length - 1)) := by
  have h1 : ¬ data.length ≤ 1 := by omega
  unfold trapezoidal
  rw [if_neg h1]
  simp only [foldl_add_range, Finset.sum_Ico_eq_sum_range]
  ring

/-- Closed form of `simpson` past its guards: the grouped-coefficient sum. -/
lemma simpson_spec (data : List (ℚ × ℚ)) (h3 : 3 ≤ data.length)
    (hodd : data.length % 2 = 1) :
    simpson data = (yval data 0 + yval data (data.length - 1)
      + 4 * ∑ k ∈ Finset.range (data.length / 2), yval data (2*k + 1)
      + 2 * ∑ k ∈ Finset.range (data.length / 2 - 1), yval data (2*k + 2))
      * ((xval data 1 - xval data 0) / 3) := by
  have h1 : ¬ data.length ≤ 2 := by omega
  have h2 : ¬ data.length % 2 = 0 := by omega
  unfold simpson
  rw [if_neg h1, if_neg h2]
  simp only [foldl_add_range]
  ring

end Integrate

namespace Integrate

/-- C1: for every sample sequence of odd length `n ≥ 3`, `simpson` returns
`(base + 4*odd_sum + 2*even_sum) * h / 3`, where `h = x[1] - x[0]`,
`base = y[0] + y[n-1]`, `odd_sum = Σ_{k < n/2} y[2k+1]` and
`even_sum = Σ_{k < n/2 - 1} y[2k+2]`. -/
theorem simpson_odd_formula (data : List (ℚ × ℚ)) (h3 : 3 ≤ data.length)
    (hodd : data.length % 2 = 1) :
    simpson data =
      (yval data 0 + yval data (data.length - 1)
        + 4 * ∑ k ∈ Finset.range (data.length / 2), yval data (2*k + 1)
        + 2 * ∑ k ∈ Finset.range (data.length / 2 - 1), yval data (2*k + 2))
        * (xval data 1 - xval data 0) / 3 := by
  rw [simpson_spec data h3 hodd]; ring

/-- Witness for C1 at the five-point `sin^2` table. -/
theorem simpson_odd_formula_witness :
    3 ≤ sinSqData.length ∧ sinSqData.length % 2 = 1 ∧
      simpson sinSqData =
        (yval sinSqData 0 + yval sinSqData (sinSqData.length - 1)
          + 4 * ∑ k ∈ Finset.range (sinSqData.length / 2), yval sinSqData (2*k + 1)
          + 2 * ∑ k ∈ Finset.range (sinSqData.length / 2 - 1), yval sinSqData (2*k + 2))
          * (xval sinSqData 1 - xval sinSqData 0) / 3 :=
  ⟨by decide, by decide, simpson_odd_formula sinSqData (by decide) (by decide)⟩

/-- C2: for every sample sequence of length `n ≥ 2`, `trapezoidal` returns
`h * (0.5*y[0] + y[1] + … + y[n-2] + 0.5*y[n-1])` with `h = x[1] - x[0]`;
for `n = 2` this is `h * 0.5*(y[0] + y[1])`. -/
theorem trapezoidal_formula (data : List (ℚ × ℚ)) (h2 : 2 ≤ data.length) :
    trapezoidal data = (xval data 1 - xval data 0) *
        ((1/2) * yval data 0 + (∑ i ∈ Finset.Ico 1 (data.length - 1), yval data i)
          + (1/2) * yval data (data.length - 1)) ∧
      (data.length = 2 → trapezoidal data =
        (xval data 1 - xval data 0) * ((1/2) * (yval data 0 + yval data 1))) := by
  refine ⟨trapezoidal_spec data h2, fun h => ?_⟩
  have h21 : (2:ℕ) - 1 = 1 := rfl
  rw [trapezoidal_spec data h2, h, h21, Finset.Ico_self, Finset.sum_empty]
  ring

/-- Witness for C2 at the repository's two-element test data. -/
theorem trapezoidal_formula_witness :
    2 ≤ twoData.length ∧
      (trapezoidal twoData = (xval twoData 1 - xval twoData 0) *
          ((1/2) * yval twoData 0 + (∑ i ∈ Finset.Ico 1 (twoData.length - 1), yval twoData i)
            + (1/2) * yval twoData (twoData.length - 1)) ∧
        (twoData.length = 2 → trapezoidal twoData =
          (xval twoData 1 - xval twoData 0) * ((1/2) * (yval twoData 0 + yval twoData 1)))) :=
  ⟨by decide, trapezoidal_formula twoData (by decide)⟩

/-- C3: `simpson` returns exactly `0` on every sequence of length at most 2
and on every sequence of even length; on every other input (odd length at
least 3) it computes the full Simpson sum, so these are the only degenerate
branches and the function never fails. -/
theorem simpson_degenerate_zero (data : List (ℚ × ℚ)) :
    (data.length ≤ 2 → simpson data = 0) ∧
    (data.length % 2 = 0 → simpson data = 0) ∧
    (3 ≤ data.length → data.length % 2 = 1 →
      simpson data = (yval data 0 + yval data (data.length - 1)
        + 4 * ∑ k ∈ Finset.range (data.length / 2), yval data (2*k + 1)
        + 2 * ∑ k ∈ Finset.range (data.length / 2 - 1), yval data (2*k + 2))
        * ((xval data 1 - xval data 0) / 3)) := by
  refine ⟨fun h => ?_, fun h => ?_, fun h3 hodd => simpson_spec data h3 hodd⟩
  · unfold simpson; rw [if_pos h]
  · unfold simpson
    by_cases h1 : data.length ≤ 2
    · rw [if_pos h1]
    · rw [if_neg h1, if_pos h]

/-- Witness for C3 at a two-element and a four-element sequence. -/
theorem simpson_degenerate_zero_witness :
    simpson twoData = 0 ∧ simpson fourData = 0 :=
  ⟨(simpson_degenerate_zero twoData).1 (by decide),
   (simpson_degenerate_zero fourData).2.1 (by decide)⟩

/-- C4: `trapezoidal` returns exactly `0` on every sequence of length 0
or 1. -/
theorem trapezoidal_short_zero (data : List (ℚ × ℚ)) (h : data.length ≤ 1) :
    trapezoidal data = 0 := by
  unfold trapezoidal; rw [if_pos h]

/-- Witness for C4 at the empty and the one-element sequence. -/
theorem trapezoidal_short_zero_witness :
    trapezoidal ([] : List (ℚ × ℚ)) = 0 ∧ trapezoidal oneData = 0 :=
  ⟨trapezoidal_short_zero [] (by decide), trapezoidal_short_zero oneData (by decide)⟩

end Integrate

namespace Integrate

/-- On an evenly spaced grid, `x[m] - x[0] = m * (x[1] - x[0])`. -/
lemma telescope_x (data : List (ℚ × ℚ))
    (hx : ∀ i < data.length - 1, xval data (i+1) - xval data i = xval data 1 - xval data 0) :
    ∀ m, m ≤ data.length - 1 →
      xval data m - xval data 0 = m * (xval data 1 - xval data 0) := by
  intro m
  induction m with
  | zero => intro _; simp
  | succ m ih =>
      intro hm
      have h2 : m < data.length - 1 := by omega
      have e1 := hx m h2
      have e2 := ih (by omega)
      push_cast
      linarith [e1, e2]

/-- C5: if every `y` value is the constant `c` and the grid is evenly
spaced, `trapezoidal` (length at least 2) and `simpson` (odd length at
least 3) both return exactly `c * (x[last] - x[0])`. -/
theorem constant_samples_exact (data : List (ℚ × ℚ)) (c : ℚ)
    (hy : ∀ i < data.length, yval data i = c)
    (hx : ∀ i < data.length - 1, xval data (i+1) - xval data i = xval data 1 - xval data 0) :
    (2 ≤ data.length → trapezoidal data = c * (xval data (data.length - 1) - xval data 0)) ∧
    (3 ≤ data.length → data.length % 2 = 1 →
      simpson data = c * (xval data (data.length - 1) - xval data 0)) := by
  have tel := telescope_x data hx
  constructor
  · intro h2
    rw [trapezoidal_spec data h2, hy 0 (by omega), hy (data.length - 1) (by omega),
      Finset.sum_congr rfl (fun i hi => hy i (by
        have := Finset.mem_Ico.mp hi; omega)),
      Finset.sum_const, Nat.card_Ico, tel (data.length - 1) le_rfl, nsmul_eq_mul]
    have hb : ((data.length - 1 : ℕ) : ℚ) = ((data.length - 1 - 1 : ℕ) : ℚ) + 1 := by
      have h := (by omega : data.length - 1 = (data.length - 1 - 1) + 1)
      exact_mod_cast congrArg (Nat.cast : ℕ → ℚ) h
    rw [hb]
    ring
  · intro h3 hodd
    rw [simpson_spec data h3 hodd, hy 0 (by omega), hy (data.length - 1) (by omega),
      Finset.sum_congr rfl (fun k hk => hy (2*k+1) (by
        have := Finset.mem_range.mp hk; omega)),
      Finset.sum_congr rfl (fun k hk => hy (2*k+2) (by
        have := Finset.mem_range.mp hk; omega)),
      Finset.sum_const, Finset.sum_const, Finset.card_range, Finset.card_range,
      tel (data.length - 1) le_rfl, nsmul_eq_mul, nsmul_eq_mul]
    have e1 : ((data.length - 1 : ℕ) : ℚ) = 2 * ((data.length / 2 : ℕ) : ℚ) := by
      have h := (by omega : data.length - 1 = 2 * (data.length / 2))
      exact_mod_cast congrArg (Nat.cast : ℕ → ℚ) h
    have e2 : ((data.length / 2 - 1 : ℕ) : ℚ) = ((data.length / 2 : ℕ) : ℚ) - 1 := by
      have h1 : 1 ≤ data.length / 2 := by omega
      rw [Nat.cast_sub h1, Nat.cast_one]
    rw [e1, e2]
    ring

/-- Witness for C5 at three constant samples `y = 5` on the grid `0, 1, 2`. -/
theorem constant_samples_exact_witness :
    trapezoidal constData = 5 * (xval constData (constData.length - 1) - xval constData 0) ∧
    simpson constData = 5 * (xval constData (constData.length - 1) - xval constData 0) := by
  have hy : ∀ i < constData.length, yval constData i = 5 := by
    intro i hi
    have h3 : i < 3 := hi
    interval_cases i <;> rfl
  have hx : ∀ i < constData.length - 1,
      xval constData (i+1) - xval constData i = xval constData 1 - xval constData 0 := by
    intro i hi
    have h2 : i < 2 := hi
    interval_cases i
    · rfl
    · norm_num [show xval constData 2 = 2 from rfl, show xval constData 1 = 1 from rfl,
        show xval constData 0 = 0 from rfl]
  exact ⟨(constant_samples_exact constData 5 hy hx).1 (by decide),
    (constant_samples_exact constData 5 hy hx).2 (by decide) (by decide)⟩

/-- C6: both functions only read indices below the length (the read sets
mirror the source's accesses behind its guards), and consequently neither
function depends on the out-of-bounds default element: running the same body
with an arbitrary default `w` gives the same result.  Totality is intrinsic:
both embeddings are total functions. -/
theorem access_safety (n : ℕ) (data : List (ℚ × ℚ)) (w : ℚ × ℚ) :
    (∀ i ∈ trapezoidalReads n, i < n) ∧ (∀ i ∈ simpsonReads n, i < n) ∧
    trapezoidalW w data = trapezoidal data ∧ simpsonW w data = simpson data := by
  refine ⟨?_, ?_, ?_, ?_⟩
  · intro i hi
    unfold trapezoidalReads at hi
    by_cases h : n ≤ 1
    · rw [if_pos h] at hi; simp at hi
    · rw [if_neg h] at hi
      simp only [List.mem_append, List.mem_cons, List.mem_map, List.mem_range,
        List.not_mem_nil, or_false] at hi
      rcases hi with h1 | h1 | h1 | ⟨x, hx, h1⟩ <;> omega
  · intro i hi
    unfold simpsonReads at hi
    by_cases h2 : n ≤ 2
    · rw [if_pos h2] at hi; simp at hi
    · rw [if_neg h2] at hi
      by_cases hpar : n % 2 = 0
      · rw [if_pos hpar] at hi; simp at hi
      · rw [if_neg hpar] at hi
        simp only [List.mem_append, List.mem_cons, List.mem_map, List.mem_range,
          List.not_mem_nil, or_false] at hi
        rcases hi with (h1 | h1 | h1) | ⟨x, hx, h1⟩ | ⟨x, hx, h1⟩ <;> omega
  · unfold trapezoidalW trapezoidal
    by_cases h : data.length ≤ 1
    · rw [if_pos h, if_pos h]
    · rw [if_neg h, if_neg h]
      simp only [foldl_add_range]
      rw [xvalW_eq w data 1 (by omega), xvalW_eq w data 0 (by omega),
        yvalW_eq w data 0 (by omega), yvalW_eq w data (data.length - 1) (by omega),
        Finset.sum_congr rfl (fun x hx => yvalW_eq w data (1+x) (by
          have := Finset.mem_range.mp hx; omega))]
  · unfold simpsonW simpson
    by_cases h2 : data.length ≤ 2
    · rw [if_pos h2, if_pos h2]
    · rw [if_neg h2, if_neg h2]
      by_cases hpar : data.length % 2 = 0
      · rw [if_pos hpar, if_pos hpar]
      · rw [if_neg hpar, if_neg hpar]
        simp only [foldl_add_range]
        rw [xvalW_eq w data 1 (by omega), xvalW_eq w data 0 (by omega),
          yvalW_eq w data 0 (by omega), yvalW_eq w data (data.length - 1) (by omega),
          Finset.sum_congr rfl (fun k hk => yvalW_eq w data (2*k+1) (by
            have := Finset.mem_range.mp hk; omega)),
          Finset.sum_congr rfl (fun k hk => yvalW_eq w data (2*k+2) (by
            have := Finset.mem_range.mp hk; omega))]

/-- Summing the Simpson panels telescopes into the grouped-coefficient
form: endpoints once, odd indices four times, interior even indices twice. -/
lemma panel_decomp (data : List (ℚ × ℚ)) :
    ∀ m, 1 ≤ m →
      ∑ k ∈ Finset.range m,
          (yval data (2*k) + 4 * yval data (2*k + 1) + yval data (2*k + 2))
        = yval data 0 + yval data (2*m)
          + 4 * ∑ k ∈ Finset.range m, yval data (2*k + 1)
          + 2 * ∑ k ∈ Finset.range (m - 1), yval data (2*k + 2) := by
  intro m
  induction m with
  | zero => intro h; omega
  | succ m ih =>
      intro _
      by_cases hm : m = 0
      · subst hm
        simp [Finset.sum_range_succ]
        ring
      · rw [Finset.sum_range_succ, ih (by omega),
          Finset.sum_range_succ (fun k => yval data (2*k + 1)) m]
        have hm1 : m + 1 - 1 = (m - 1) + 1 := by omega
        rw [hm1, Finset.sum_range_succ (fun k => yval data (2*k + 2)) (m-1)]
        have h2 : 2*(m-1) + 2 = 2*m := by omega
        have h3 : 2*m + 2 = 2*(m+1) := by omega
        rw [h2, h3]
        ring

/-- C9: in exact arithmetic, for every sample sequence of odd length at
least 3, the grouped-coefficient Simpson sum the source computes equals the
panel-by-panel composite Simpson reference sum. -/
theorem simpson_eq_panels (data : List (ℚ × ℚ)) (h3 : 3 ≤ data.length)
    (hodd : data.length % 2 = 1) :
    simpson data = simpsonPanelsRef data := by
  unfold simpsonPanelsRef
  rw [simpson_spec data h3 hodd, ← Finset.mul_sum,
    panel_decomp data ((data.length - 1) / 2) (by omega)]
  have h2m : 2 * ((data.length - 1) / 2) = data.length - 1 := by omega
  have hd : (data.length - 1) / 2 = data.length / 2 := by omega
  rw [h2m, hd]
  ring

/-- Witness for C9 at the five-point `sin^2` table. -/
theorem simpson_eq_panels_witness :
    3 ≤ sinSqData.length ∧ sinSqData.length % 2 = 1 ∧
      simpson sinSqData = simpsonPanelsRef sinSqData :=
  ⟨by decide, by decide, simpson_eq_panels sinSqData (by decide) (by decide)⟩

/-- C10: the results depend only on the `y` values and on `x[1] - x[0]`:
two sequences of equal length with pointwise equal `y` values and the same
leading spacing (vacuous below length 2) give identical results under both
functions, whatever the remaining `x` values are. -/
theorem depends_only_on_h_and_y (d1 d2 : List (ℚ × ℚ))
    (hlen : d1.length = d2.length)
    (hy : ∀ i < d1.length, yval d1 i = yval d2 i)
    (hx : 2 ≤ d1.length → xval d1 1 - xval d1 0 = xval d2 1 - xval d2 0) :
    trapezoidal d1 = trapezoidal d2 ∧ simpson d1 = simpson d2 := by
  constructor
  · by_cases h : d1.length ≤ 1
    · have z1 : trapezoidal d1 = 0 := by unfold trapezoidal; rw [if_pos h]
      have z2 : trapezoidal d2 = 0 := by unfold trapezoidal; rw [if_pos (hlen ▸ h)]
      rw [z1, z2]
    · have h2 : 2 ≤ d1.length := by omega
      rw [trapezoidal_spec d1 h2, trapezoidal_spec d2 (by omega), ← hlen, hx h2,
        hy 0 (by omega), hy (d1.length - 1) (by omega),
        Finset.sum_congr rfl (fun i hi => hy i (by
          have := Finset.mem_Ico.mp hi; omega))]
  · by_cases h : d1.length ≤ 2
    · have z1 : simpson d1 = 0 := by unfold simpson; rw [if_pos h]
      have z2 : simpson d2 = 0 := by unfold simpson; rw [if_pos (hlen ▸ h)]
      rw [z1, z2]
    · by_cases hpar : d1.length % 2 = 0
      · have z1 : simpson d1 = 0 := by unfold simpson; rw [if_neg h, if_pos hpar]
        have z2 : simpson d2 = 0 := by
          unfold simpson; rw [if_neg (hlen ▸ h), if_pos (hlen ▸ hpar)]
        rw [z1, z2]
      · have h3 : 3 ≤ d1.length := by omega
        have hodd : d1.length % 2 = 1 := by omega
        rw [simpson_spec d1 h3 hodd, simpson_spec d2 (by omega) (by omega), ← hlen,
          hx (by omega), hy 0 (by omega), hy (d1.length - 1) (by omega),
          Finset.sum_congr rfl (fun k hk => hy (2*k+1) (by
            have := Finset.mem_range.mp hk; omega)),
          Finset.sum_congr rfl (fun k hk => hy (2*k+2) (by
            have := Finset.mem_range.mp hk; omega))]

/-- Witness for C10: two sequences with equal `y` values and equal leading
spacing but different `x` coordinates elsewhere. -/
theorem depends_only_on_h_and_y_witness :
    trapezoidal hOnlyA = trapezoidal hOnlyB ∧ simpson hOnlyA = simpson hOnlyB := by
  have hy : ∀ i < hOnlyA.length, yval hOnlyA i = yval hOnlyB i := by
    intro i hi
    have h3 : i < 3 := hi
    interval_cases i <;> rfl
  have hx : 2 ≤ hOnlyA.length →
      xval hOnlyA 1 - xval hOnlyA 0 = xval hOnlyB 1 - xval hOnlyB 0 := by
    intro _
    norm_num [show xval hOnlyA 1 = 1 from rfl, show xval hOnlyA 0 = 0 from rfl,
      show xval hOnlyB 1 = 101 from rfl, show xval hOnlyB 0 = 100 from rfl]
  exact depends_only_on_h_and_y hOnlyA hOnlyB rfl hy hx

end Integrate

namespace FP

set_option maxRecDepth 1000000

example : dlit 5 1 = F64.fin 1 (-1) := by decide
example : dlit 3 0 = F64.fin 3 0 := by decide
example : dlit 1 0 = F64.fin 1 0 := by decide
example : dlit 25 2 = F64.fin 1 (-2) := by decide

/-- C8: evaluated in binary64 arithmetic, the repository's five-point
`sin^2` table makes `simpson` return exactly the double denoted by the
literal `0.27259415` and `trapezoidal` exactly the double denoted by the
literal `0.2774313` — the equalities asserted by `test_simpson_sin_squared`
and `test_trapezoidal_sin_squared`. -/
theorem known_numeric_scenario_float :
    simpsonF sinSqF = dlit 27259415 8 ∧ trapezoidalF sinSqF = dlit 2774313 7 := by
  decide

/-- C7, counterexample: two finite samples with `y = f64::MAX` drive
`trapezoidal` to `+∞` in binary64 (the sum `MAX + MAX` overflows), so the
result is not finite even though every input component is finite. -/
theorem trapezoidal_overflow_counterexample :
    trapezoidalF overflowData = F64.pinf ∧ (trapezoidalF overflowData).isFinite = false := by
  constructor <;> decide

end FP

namespace FP

lemma ipow2_pos (n : ℕ) : (0:ℤ) < ipow2 n := by
  unfold ipow2
  positivity

lemma ipow2_cast (n : ℕ) : ((ipow2 n : ℤ) : ℚ) = (2:ℚ)^n := by
  unfold ipow2
  push_cast
  ring

lemma rneInt_nonneg (a b : ℤ) (ha : 0 ≤ a) (hb : 0 < b) : 0 ≤ rneInt a b := by
  simp only [rneInt]
  have hq : 0 ≤ Int.ediv a b := Int.ediv_nonneg ha hb.le
  split_ifs <;> omega

lemma rneInt_mul_le (a b : ℤ) (ha : 0 ≤ a) (hb : 0 < b) : rneInt a b * b ≤ 2 * a := by
  simp only [rneInt]
  set q := Int.ediv a b with hqdef
  have hqr : b * q + Int.emod a b = a := Int.ediv_add_emod a b
  have h0r : 0 ≤ Int.emod a b := Int.emod_nonneg a (ne_of_gt hb)
  have hrb : Int.emod a b < b := Int.emod_lt_of_pos a hb
  have hq0 : 0 ≤ q := Int.ediv_nonneg ha hb.le
  have hbq0 : 0 ≤ b * q := mul_nonneg hb.le hq0
  have hqb : q * b = a - Int.emod a b := by
    have hc : b * q = q * b := mul_comm b q
    linarith
  have hplus : (q + 1) * b = q * b + b := by ring
  split_ifs <;> linarith

lemma stripTwos_spec :
    ∀ (fuel : ℕ) (m e : ℤ), 0 < m →
      ∃ m2 e2, stripTwos fuel m e = .fin m2 e2 ∧ 0 < m2 ∧
        (m2:ℚ) * (2:ℚ)^e2 = (m:ℚ) * (2:ℚ)^e := by
  intro fuel
  induction fuel with
  | zero => intro m e hm; exact ⟨m, e, rfl, hm, rfl⟩
  | succ fuel ih =>
      intro m e hm
      unfold stripTwos
      by_cases hpar : m % 2 = 0
      · rw [if_pos hpar]
        have hm2 : 0 < m / 2 := by omega
        obtain ⟨m2, e2, heq, hm2p, hval⟩ := ih (m / 2) (e+1) hm2
        refine ⟨m2, e2, heq, hm2p, ?_⟩
        rw [hval]
        have hev : m = 2 * (m / 2) := by omega
        have h2 : ((m / 2 : ℤ) : ℚ) * 2 = (m : ℚ) := by
          have hc := congrArg (fun z : ℤ => (z : ℚ)) hev
          push_cast at hc
          linarith
        rw [zpow_add_one₀ (two_ne_zero : (2:ℚ) ≠ 0)]
        linear_combination (2:ℚ)^e * h2
      · rw [if_neg hpar]
        exact ⟨m, e, rfl, hm, rfl⟩

lemma canonPos_spec (m e : ℤ) (hm : 0 ≤ m) :
    ∃ m2 e2, canonPos m e = .fin m2 e2 ∧ 0 ≤ m2 ∧
      (m2:ℚ) * (2:ℚ)^e2 = (m:ℚ) * (2:ℚ)^e := by
  unfold canonPos
  by_cases h0 : m = 0
  · rw [if_pos h0]
    exact ⟨0, 0, rfl, le_rfl, by simp [h0]⟩
  · rw [if_neg h0]
    obtain ⟨m2, e2, heq, hm2, hval⟩ := stripTwos_spec 1100 m e (by omega)
    exact ⟨m2, e2, heq, hm2.le, hval⟩

end FP

namespace FP

lemma key_of_neg (M bq aq P Q : ℚ) (hPQ : P * Q = 1) (hQ : 0 < Q)
    (h : M * (bq * P) ≤ 2 * aq) : M * bq ≤ 2 * (aq * Q) := by
  have h3 := mul_le_mul_of_nonneg_right h hQ.le
  calc M * bq = M * (bq * P) * Q := by linear_combination (-(M * bq)) * hPQ
    _ ≤ 2 * aq * Q := h3
    _ = 2 * (aq * Q) := by ring

lemma val_bound_of_key (M bq aq S E K : ℚ) (hb : 0 < bq) (hE : 0 < E)
    (hSE : S * E = K) (key : M * bq ≤ 2 * (aq * S)) : M * E ≤ 2 * (aq / bq * K) := by
  have h2 := mul_le_mul_of_nonneg_right key hE.le
  have hval2 : M * E * bq ≤ 2 * (aq * K) := by
    calc M * E * bq = M * bq * E := by ring
      _ ≤ 2 * (aq * S) * E := h2
      _ = 2 * (aq * K) := by linear_combination (2 * aq) * hSE
  have hrw : 2 * (aq / bq * K) = 2 * (aq * K) / bq := by
    ring
  rw [hrw, le_div_iff₀ hb]
  exact hval2

lemma roundPos_bound (a b k : ℤ) (ha : 0 < a) (hb : 0 < b) (B : ℚ)
    (hv : (a:ℚ) / b * (2:ℚ)^k ≤ B) (hB : 2 * B < (2:ℚ)^(1024:ℤ)) :
    ∃ m2 e2, roundPos a b k = .fin m2 e2 ∧ 0 ≤ m2 ∧
      (m2:ℚ) * (2:ℚ)^e2 ≤ 2 * B := by
  have hbq : (0:ℚ) < (b:ℚ) := by exact_mod_cast hb
  have haq : (0:ℚ) < (a:ℚ) := by exact_mod_cast ha
  simp only [roundPos]
  set e := max (flog2 a b + k - 52) (-1074) with he
  set s := k - e with hs
  set m := (if 0 ≤ s then rneInt (a * ipow2 s.toNat) b
    else rneInt a (b * ipow2 (-s).toNat)) with hmdef
  have he74 : (-1074 : ℤ) ≤ e := by rw [he]; exact le_max_right _ _
  have hm0 : 0 ≤ m := by
    rw [hmdef]
    split_ifs with hs0
    · exact rneInt_nonneg _ _ (mul_nonneg ha.le (ipow2_pos _).le) hb
    · exact rneInt_nonneg _ _ ha.le (mul_pos hb (ipow2_pos _))
  have key : (m:ℚ) * b ≤ 2 * ((a:ℚ) * (2:ℚ)^s) := by
    rw [hmdef]
    split_ifs with hs0
    · have h1 := rneInt_mul_le (a * ipow2 s.toNat) b
        (mul_nonneg ha.le (ipow2_pos _).le) hb
      have h2 : (((a * ipow2 s.toNat : ℤ)) : ℚ) = (a:ℚ) * (2:ℚ)^s := by
        push_cast [ipow2_cast]
        rw [← zpow_natCast (2:ℚ) s.toNat, Int.toNat_of_nonneg hs0]
      have h1q : ((rneInt (a * ipow2 s.toNat) b : ℤ) : ℚ) * (b:ℚ)
          ≤ 2 * (((a * ipow2 s.toNat : ℤ)) : ℚ) := by exact_mod_cast h1
      rw [h2] at h1q
      exact h1q
    · have hbp := mul_pos hb (ipow2_pos (-s).toNat)
      have h1 := rneInt_mul_le a (b * ipow2 (-s).toNat) ha.le hbp
      have hcast : (((b * ipow2 (-s).toNat : ℤ)) : ℚ) = (b:ℚ) * (2:ℚ)^(-s) := by
        push_cast [ipow2_cast]
        rw [← zpow_natCast (2:ℚ) (-s).toNat, Int.toNat_of_nonneg (by omega : (0:ℤ) ≤ -s)]
      have h1q : ((rneInt a (b * ipow2 (-s).toNat) : ℤ) : ℚ) * ((b:ℚ) * (2:ℚ)^(-s))
          ≤ 2 * (a:ℚ) := by
        rw [← hcast]
        exact_mod_cast h1
      have hss : (2:ℚ)^(-s) * (2:ℚ)^s = 1 := by
        rw [← zpow_add₀ (two_ne_zero : (2:ℚ) ≠ 0)]
        simp
      exact key_of_neg _ _ _ _ _ hss (by positivity) h1q
  have hse : (2:ℚ)^s * (2:ℚ)^e = (2:ℚ)^k := by
    rw [← zpow_add₀ (two_ne_zero : (2:ℚ) ≠ 0)]
    congr 1
    omega
  have hval : (m:ℚ) * (2:ℚ)^e ≤ 2 * ((a:ℚ) / b * (2:ℚ)^k) :=
    val_bound_of_key _ _ _ _ _ _ hbq (by positivity) hse key
  have hval2B : (m:ℚ) * (2:ℚ)^e ≤ 2 * B := by
    have := mul_le_mul_of_nonneg_left hv (by norm_num : (0:ℚ) ≤ 2)
    linarith
  have hov : ¬ (ipow2 2098 ≤ m * ipow2 (e + 1074).toNat) := by
    intro hcon
    have he74' : (0:ℤ) ≤ e + 1074 := by omega
    have step : ((ipow2 2098 : ℤ) : ℚ) ≤ (m:ℚ) * ((ipow2 (e + 1074).toNat : ℤ) : ℚ) := by
      exact_mod_cast hcon
    rw [ipow2_cast, ipow2_cast] at step
    rw [← zpow_natCast (2:ℚ) (e + 1074).toNat, Int.toNat_of_nonneg he74'] at step
    have h2098 : (2:ℚ)^(2098:ℕ) = (2:ℚ)^(2098:ℤ) := by
      rw [← zpow_natCast (2:ℚ) 2098]
      norm_num
    rw [h2098] at step
    have hsplit : (m:ℚ) * (2:ℚ)^(e + 1074) * (2:ℚ)^(-1074:ℤ) = (m:ℚ) * (2:ℚ)^e := by
      rw [mul_assoc, ← zpow_add₀ (two_ne_zero : (2:ℚ) ≠ 0)]
      congr 2
      omega
    have hge : (2:ℚ)^(1024:ℤ) ≤ (m:ℚ) * (2:ℚ)^e := by
      calc (2:ℚ)^(1024:ℤ) = (2:ℚ)^(2098:ℤ) * (2:ℚ)^(-1074:ℤ) := by
            rw [← zpow_add₀ (two_ne_zero : (2:ℚ) ≠ 0)]
            norm_num
        _ ≤ (m:ℚ) * (2:ℚ)^(e + 1074) * (2:ℚ)^(-1074:ℤ) :=
            mul_le_mul_of_nonneg_right step (by positivity)
        _ = (m:ℚ) * (2:ℚ)^e := hsplit
    linarith
  rw [if_neg hov]
  obtain ⟨m2, e2, heq, hm2, hvaleq⟩ := canonPos_spec m e hm0
  refine ⟨m2, e2, heq, hm2, ?_⟩
  rw [hvaleq]
  exact hval2B

end FP

namespace FP

lemma val_neg (x : F64) : (F64.neg x).val = - x.val := by
  cases x with
  | fin m e =>
      simp only [F64.neg, F64.val]
      push_cast
      ring
  | pinf => simp [F64.neg, F64.val]
  | ninf => simp [F64.neg, F64.val]
  | nan => simp [F64.neg, F64.val]

lemma isFinite_neg (x : F64) : (F64.neg x).isFinite = x.isFinite := by
  cases x <;> rfl

lemma roundQ_bound (p q k : ℤ) (hq : 0 < q) (B : ℚ)
    (hv : |(p:ℚ) / q * (2:ℚ)^k| ≤ B) (hB : 2 * B < (2:ℚ)^(1024:ℤ)) :
    (roundQ p q k).isFinite = true ∧ |(roundQ p q k).val| ≤ 2 * B := by
  have hB0 : 0 ≤ B := le_trans (abs_nonneg _) hv
  unfold roundQ
  by_cases hp0 : p = 0
  · rw [if_pos hp0]
    refine ⟨rfl, ?_⟩
    simp only [F64.val]
    simp
    linarith
  · rw [if_neg hp0]
    by_cases hpp : 0 < p
    · rw [if_pos hpp]
      have hvv : (p:ℚ) / q * (2:ℚ)^k ≤ B := le_of_abs_le hv
      obtain ⟨m2, e2, heq, hm2, hb2⟩ := roundPos_bound p q k hpp hq B hvv hB
      rw [heq]
      refine ⟨rfl, ?_⟩
      simp only [F64.val]
      rw [abs_of_nonneg (mul_nonneg (by exact_mod_cast hm2) (by positivity))]
      exact hb2
    · rw [if_neg hpp]
      have hpn : 0 < -p := by omega
      have hvv : ((-p : ℤ):ℚ) / q * (2:ℚ)^k ≤ B := by
        have habs : ((-p : ℤ):ℚ) / q * (2:ℚ)^k = -((p:ℚ) / q * (2:ℚ)^k) := by
          push_cast
          ring
        rw [habs]
        exact le_trans (neg_le_abs _) hv
      obtain ⟨m2, e2, heq, hm2, hb2⟩ := roundPos_bound (-p) q k hpn hq B hvv hB
      rw [heq]
      refine ⟨rfl, ?_⟩
      simp only [F64.neg, F64.val]
      have hflip : ((-m2 : ℤ):ℚ) * (2:ℚ)^e2 = -((m2:ℚ) * (2:ℚ)^e2) := by
        push_cast
        ring
      rw [hflip, abs_neg,
        abs_of_nonneg (mul_nonneg (by exact_mod_cast hm2) (by positivity))]
      exact hb2

lemma dyadic_sum (m1 e1 m2 e2 : ℤ) :
    ((m1 * ipow2 (e1 - min e1 e2).toNat + m2 * ipow2 (e2 - min e1 e2).toNat : ℤ) : ℚ)
      * (2:ℚ)^(min e1 e2) = (m1:ℚ) * (2:ℚ)^e1 + (m2:ℚ) * (2:ℚ)^e2 := by
  have h1 : ((e1 - min e1 e2).toNat : ℤ) = e1 - min e1 e2 := Int.toNat_of_nonneg (by omega)
  have h2 : ((e2 - min e1 e2).toNat : ℤ) = e2 - min e1 e2 := Int.toNat_of_nonneg (by omega)
  have p1 : (2:ℚ)^((e1 - min e1 e2).toNat) * (2:ℚ)^(min e1 e2) = (2:ℚ)^e1 := by
    rw [← zpow_natCast (2:ℚ) (e1 - min e1 e2).toNat, h1,
      ← zpow_add₀ (two_ne_zero : (2:ℚ) ≠ 0)]
    congr 1
    omega
  have p2 : (2:ℚ)^((e2 - min e1 e2).toNat) * (2:ℚ)^(min e1 e2) = (2:ℚ)^e2 := by
    rw [← zpow_natCast (2:ℚ) (e2 - min e1 e2).toNat, h2,
      ← zpow_add₀ (two_ne_zero : (2:ℚ) ≠ 0)]
    congr 1
    omega
  push_cast [ipow2_cast]
  linear_combination (m1:ℚ) * p1 + (m2:ℚ) * p2

lemma fadd_bound (x y : F64) (A B : ℚ)
    (hxf : x.isFinite = true) (hxv : |x.val| ≤ A)
    (hyf : y.isFinite = true) (hyv : |y.val| ≤ B)
    (hAB : 2 * (A + B) < (2:ℚ)^(1024:ℤ)) :
    (fadd x y).isFinite = true ∧ |(fadd x y).val| ≤ 2 * (A + B) := by
  cases x with
  | fin m1 e1 =>
      cases y with
      | fin m2 e2 =>
          simp only [F64.val] at hxv hyv
          simp only [fadd]
          apply roundQ_bound _ _ _ one_pos (A + B) _ hAB
          rw [Int.cast_one, div_one, dyadic_sum]
          exact le_trans (abs_add _ _) (add_le_add hxv hyv)
      | pinf => simp [F64.isFinite] at hyf
      | ninf => simp [F64.isFinite] at hyf
      | nan => simp [F64.isFinite] at hyf
  | pinf => simp [F64.isFinite] at hxf
  | ninf => simp [F64.isFinite] at hxf
  | nan => simp [F64.isFinite] at hxf

lemma fsub_bound (x y : F64) (A B : ℚ)
    (hxf : x.isFinite = true) (hxv : |x.val| ≤ A)
    (hyf : y.isFinite = true) (hyv : |y.val| ≤ B)
    (hAB : 2 * (A + B) < (2:ℚ)^(1024:ℤ)) :
    (fsub x y).isFinite = true ∧ |(fsub x y).val| ≤ 2 * (A + B) := by
  unfold fsub
  apply fadd_bound x (F64.neg y) A B hxf hxv _ _ hAB
  · rw [isFinite_neg]
    exact hyf
  · rw [val_neg, abs_neg]
    exact hyv

lemma fmul_bound (x y : F64) (A B : ℚ)
    (hxf : x.isFinite = true) (hxv : |x.val| ≤ A)
    (hyf : y.isFinite = true) (hyv : |y.val| ≤ B)
    (hAB : 2 * (A * B) < (2:ℚ)^(1024:ℤ)) :
    (fmul x y).isFinite = true ∧ |(fmul x y).val| ≤ 2 * (A * B) := by
  have hA0 : 0 ≤ A := le_trans (abs_nonneg _) hxv
  cases x with
  | fin m1 e1 =>
      cases y with
      | fin m2 e2 =>
          simp only [F64.val] at hxv hyv
          simp only [fmul]
          apply roundQ_bound _ _ _ one_pos (A * B) _ hAB
          rw [Int.cast_one, div_one]
          have hprod : ((m1 * m2 : ℤ):ℚ) * (2:ℚ)^(e1 + e2)
              = ((m1:ℚ) * (2:ℚ)^e1) * ((m2:ℚ) * (2:ℚ)^e2) := by
            push_cast
            rw [zpow_add₀ (two_ne_zero : (2:ℚ) ≠ 0)]
            ring
          rw [hprod, abs_mul]
          exact mul_le_mul hxv hyv (abs_nonneg _) hA0
      | pinf => simp [F64.isFinite] at hyf
      | ninf => simp [F64.isFinite] at hyf
      | nan => simp [F64.isFinite] at hyf
  | pinf => simp [F64.isFinite] at hxf
  | ninf => simp [F64.isFinite] at hxf
  | nan => simp [F64.isFinite] at hxf

end FP

namespace FP

lemma foldl_fadd_bound (g : ℕ → F64) :
    ∀ (l : List ℕ) (acc : F64) (C : ℚ), 1 ≤ C →
      acc.isFinite = true → |acc.val| ≤ C →
      (∀ i ∈ l, (g i).isFinite = true ∧ |(g i).val| ≤ 1) →
      (4:ℚ)^l.length * C < (2:ℚ)^(1022:ℤ) →
      (l.foldl (fun acc i => fadd acc (g i)) acc).isFinite = true ∧
        |(l.foldl (fun acc i => fadd acc (g i)) acc).val| ≤ (4:ℚ)^l.length * C := by
  intro l
  induction l with
  | nil =>
      intro acc C hC hfin hval _ _
      simp only [List.foldl_nil, List.length_nil, pow_zero, one_mul]
      exact ⟨hfin, hval⟩
  | cons i l ih =>
      intro acc C hC hfin hval hg hlen
      simp only [List.length_cons] at hlen ⊢
      simp only [List.foldl_cons]
      rw [pow_succ] at hlen
      have hgi := hg i (List.mem_cons_self i l)
      have hpow1 : (1:ℚ) ≤ (4:ℚ)^l.length := one_le_pow₀ (by norm_num)
      have hsplit : (2:ℚ)^(1024:ℤ) = (2:ℚ)^(1022:ℤ) * 4 := by
        rw [show (1024:ℤ) = 1022 + 2 by norm_num, zpow_add₀ (two_ne_zero : (2:ℚ) ≠ 0)]
        norm_num
      have h4C : 4 * C ≤ (4:ℚ)^l.length * 4 * C := by
        nlinarith [mul_nonneg (sub_nonneg.mpr hpow1) (by linarith : (0:ℚ) ≤ 4 * C)]
      have hC4 : 2 * (C + 1) < (2:ℚ)^(1024:ℤ) := by
        have h1 : (0:ℚ) < (2:ℚ)^(1022:ℤ) := by positivity
        nlinarith [hlen, h4C]
      obtain ⟨hfin2, hval2⟩ := fadd_bound acc (g i) C 1 hfin hval hgi.1 hgi.2 hC4
      have hnew : |(fadd acc (g i)).val| ≤ 4 * C := by linarith
      have h1C : (1:ℚ) ≤ 4 * C := by linarith
      have hg2 : ∀ j ∈ l, (g j).isFinite = true ∧ |(g j).val| ≤ 1 :=
        fun j hj => hg j (List.mem_cons_of_mem i hj)
      have hlen2 : (4:ℚ)^l.length * (4 * C) < (2:ℚ)^(1022:ℤ) := by
        have he : (4:ℚ)^l.length * (4 * C) = (4:ℚ)^l.length * 4 * C := by ring
        rw [he]
        exact hlen
      obtain ⟨hfin3, hval3⟩ := ih (fadd acc (g i)) (4 * C) h1C hfin2 hnew hg2 hlen2
      refine ⟨hfin3, ?_⟩
      calc |(List.foldl (fun acc i => fadd acc (g i)) (fadd acc (g i)) l).val|
          ≤ (4:ℚ)^l.length * (4 * C) := hval3
        _ = (4:ℚ)^(l.length + 1) * C := by rw [pow_succ]; ring

end FP

namespace FP

set_option maxRecDepth 1000000

/-- C7, amended: `trapezoidal` in binary64 is not always finite on finite
inputs (see `trapezoidal_overflow_counterexample`); finiteness does hold
under magnitude bounds, for instance whenever the first two `x` values and
all `y` values have magnitude at most 1 and there are at most 100 samples. -/
theorem trapezoidalF_finite_of_bounded (data : List (F64 × F64))
    (hlen : data.length ≤ 100)
    (hy : ∀ i < data.length, (yF data i).isFinite = true ∧ |(yF data i).val| ≤ 1)
    (hx1 : (xF data 1).isFinite = true ∧ |(xF data 1).val| ≤ 1)
    (hx0 : (xF data 0).isFinite = true ∧ |(xF data 0).val| ≤ 1) :
    (trapezoidalF data).isFinite = true := by
  unfold trapezoidalF
  by_cases h1 : data.length ≤ 1
  · rw [if_pos h1]
    rfl
  · rw [if_neg h1]
    have hh := fsub_bound (xF data 1) (xF data 0) 1 1 hx1.1 hx1.2 hx0.1 hx0.2
      (by norm_num)
    have hy0 := hy 0 (by omega)
    have hylast := hy (data.length - 1) (by omega)
    have hadd := fadd_bound (yF data 0) (yF data (data.length - 1)) 1 1
      hy0.1 hy0.2 hylast.1 hylast.2 (by norm_num)
    have hdl : (dlit 5 1).isFinite = true ∧ |(dlit 5 1).val| ≤ 2 * (1/2 : ℚ) := by
      unfold dlit
      apply roundQ_bound _ _ _ (by norm_num) (1/2) ?_ (by norm_num)
      push_cast
      rw [abs_of_nonneg (by positivity)]
      norm_num
    have hinit := fmul_bound (dlit 5 1)
      (fadd (yF data 0) (yF data (data.length - 1))) 1 4
      hdl.1 (by linarith [hdl.2]) hadd.1 (by linarith [hadd.2]) (by norm_num)
    have hfold := foldl_fadd_bound (fun x => yF data (1 + x))
      (List.range (data.length - 1 - 1))
      (fmul (dlit 5 1) (fadd (yF data 0) (yF data (data.length - 1)))) 8
      (by norm_num) hinit.1 (by linarith [hinit.2])
      (fun i hi => hy (1 + i) (by
        have := List.mem_range.mp hi
        omega))
      (by
        rw [List.length_range]
        have hle : (4:ℚ)^(data.length - 1 - 1) ≤ (4:ℚ)^(98:ℕ) :=
          pow_le_pow_right₀ (by norm_num) (by omega)
        have hnum : (4:ℚ)^(98:ℕ) * 8 < (2:ℚ)^(1022:ℤ) := by norm_num
        nlinarith [hle])
    obtain ⟨hf1, hf2⟩ := hfold
    rw [List.length_range] at hf2
    have hh2 : |(fsub (xF data 1) (xF data 0)).val| ≤ 4 := by linarith [hh.2]
    have hle : (4:ℚ)^(data.length - 1 - 1) ≤ (4:ℚ)^(98:ℕ) :=
      pow_le_pow_right₀ (by norm_num) (by omega)
    have hfin := fmul_bound
      (List.foldl (fun acc x => fadd acc (yF data (1 + x)))
        (fmul (dlit 5 1) (fadd (yF data 0) (yF data (data.length - 1))))
        (List.range (data.length - 1 - 1)))
      (fsub (xF data 1) (xF data 0))
      ((4:ℚ)^(data.length - 1 - 1) * 8) 4
      hf1 hf2 hh.1 hh2
      (by
        have hnum : 2 * ((4:ℚ)^(98:ℕ) * 8 * 4) < (2:ℚ)^(1024:ℤ) := by norm_num
        nlinarith [hle])
    exact hfin.1

/-- Witness for the amended C7 at two bounded samples. -/
theorem trapezoidalF_finite_of_bounded_witness :
    (trapezoidalF boundedData).isFinite = true := by
  refine trapezoidalF_finite_of_bounded boundedData (by decide) ?_ ⟨rfl, ?_⟩ ⟨rfl, ?_⟩
  · intro i hi
    have h2 : i < 2 := hi
    interval_cases i
    · exact ⟨rfl, by
        rw [show yF boundedData 0 = F64.fin 1 0 from rfl]
        norm_num [F64.val]⟩
    · exact ⟨rfl, by
        rw [show yF boundedData 1 = F64.fin 1 0 from rfl]
        norm_num [F64.val]⟩
  · rw [show xF boundedData 1 = F64.fin 1 0 from rfl]
    norm_num [F64.val]
  · rw [show xF boundedData 0 = F64.fin 0 0 from rfl]
    norm_num [F64.val]

end FP
